import Mathlib

/-!
# Verification of the `aido` interactive command-synthesis core

A shallow embedding of `src/main.rs` of the `aido` CLI: the answer
normalizer (`clean_answer`), the bounded box renderer
(`print_highlighted_code`), the interactive refine/accept loop in `main`,
and the executor hand-off.  Strings are modelled as `List Char` (the
source's `&str`/`String` values, byte positions replaced by character
positions, which coincide on every input considered since the fence and
newline patterns are ASCII).  `usize` subtraction that can overflow is
modelled by `checkedSub`, whose failure corresponds to the arithmetic
overflow panic (debug) / capacity-overflow abort (release) of the source.
-/

namespace Aido

/-- Character strings, as the source's `String`/`&str`. -/
abbrev Str := List Char

/-- Whitespace recognizer used by Rust's `trim`/`split_whitespace`
(restricted to the ASCII whitespace characters, on which the source's
Unicode `char::is_whitespace` agrees). -/
def isWsChar (c : Char) : Bool :=
  c = ' ' || c = '\t' || c = '\r' || c = '\n'

/-- Rust `str::trim_start`. -/
def trimL (s : Str) : Str := s.dropWhile isWsChar

/-- Rust `str::trim_end`. -/
def trimR (s : Str) : Str := s.rdropWhile isWsChar

/-- Rust `str::trim`: remove leading and trailing whitespace. -/
def trim (s : Str) : Str := trimR (trimL s)

/-- The triple-backtick fence marker `"```"`. -/
def fence : Str := ['`', '`', '`']

/-- Rust `s.find('\n')`: position of the first occurrence of a character. -/
def findChar (c : Char) : Str → Option Nat
  | [] => none
  | a :: as => if a = c then some 0 else (findChar c as).map (· + 1)

/-- Does `fence` occur in `s` starting at position `i`? -/
def fenceAt (s : Str) (i : Nat) : Bool := fence.isPrefixOf (s.drop i)

/-- Rust `s.rfind("```")`: the position of the last occurrence of the
triple-backtick pattern, if any. -/
def rfindFence (s : Str) : Option Nat :=
  ((List.range (s.length + 1)).filter (fun i => fenceAt s i)).getLast?

/-- The answer normalizer `clean_answer` from `src/main.rs`: trim, strip an
opening ```` ``` ```` fence line, strip a closing ```` ``` ```` fence, trim
again. -/
def clean_answer (raw : Str) : Str :=
  let s0 := trim raw
  let s1 := if fence.isPrefixOf s0 then
      match findChar '\n' s0 with
      | some pos => s0.drop (pos + 1)
      | none => s0
    else s0
  let s2 := if fence.isSuffixOf s1 then
      match rfindFence s1 with
      | some pos => s1.take pos
      | none => s1
    else s1
  trim s2

/-! ## The bounded renderer (`print_highlighted_code`)

The wrapping loop of `print_highlighted_code` keeps a current visual line
`buf` with its running length `len`, greedily packs whitespace-separated
words, and prints (`emits`) a padded visual line on overflow and at the end
of each logical line.  The padding width is computed by the `usize`
subtraction `max - buf.len()`, which panics when `buf` is longer than the
interior width; `EmitSt.panicked` records that the process died there, and
after it is set no further line is emitted (the remaining steps are
no-ops, mirroring the abort). -/

/-- Accumulator worker for `splitWs`: `acc` holds the reversed current
word. -/
def splitWsAux : Str → Str → List Str
  | [], acc => if acc.isEmpty then [] else [acc.reverse]
  | c :: cs, acc =>
    if isWsChar c then
      if acc.isEmpty then splitWsAux cs [] else acc.reverse :: splitWsAux cs []
    else splitWsAux cs (c :: acc)

/-- Rust `str::split_whitespace` on one logical line: the maximal runs of
non-whitespace characters, in order, with no empty pieces. -/
def splitWs (s : Str) : List Str := splitWsAux s []

/-- Split on `'\n'`, keeping every piece (helper for `rustLines`). -/
def splitNl : Str → List Str
  | [] => [[]]
  | c :: cs =>
    if c = '\n' then [] :: splitNl cs
    else
      match splitNl cs with
      | [] => [[c]]
      | l :: ls => (c :: l) :: ls

/-- Drop one trailing `'\r'` (the `\r\n` line ending of Rust `str::lines`). -/
def stripCr (l : Str) : Str :=
  if l.getLast? = some '\r' then l.dropLast else l

/-- Rust `str::lines`: pieces between newlines, `'\r'` stripped from
newline-terminated pieces, and no final empty piece for a trailing
newline (so the empty string has no lines at all). -/
def rustLines (s : Str) : List Str :=
  let ps := splitNl s
  let body := ps.dropLast.map stripCr
  match ps.getLast? with
  | none => body
  | some [] => body
  | some lastPiece => body ++ [lastPiece]

/-- Checked `usize` subtraction: `none` is the overflow panic of the
source's `max - buf.len()`. -/
def checkedSub (a b : Nat) : Option Nat :=
  if b ≤ a then some (a - b) else none

/-- Right-pad a visual line's content with spaces to width `w`. -/
def padTo (w : Nat) (s : Str) : Str :=
  s ++ List.replicate (w - s.length) ' '

/-- State of the wrapping loop: the current visual line and its running
length, the visual-line contents emitted so far, and whether the padding
subtraction has panicked. -/
structure EmitSt where
  buf : Str
  len : Nat
  emitted : List Str
  panicked : Bool
deriving DecidableEq

/-- Print one padded visual line (the `println!("│ {}{} │", …)` of the
source, keeping the interior content): emits `buf` padded to width `w`,
or panics when `buf` is longer than `w`. -/
def flushLine (w : Nat) (st : EmitSt) : EmitSt :=
  if st.panicked then st
  else
    match checkedSub w st.buf.length with
    | some k => { st with emitted := st.emitted ++ [st.buf ++ List.replicate k ' '] }
    | none => { st with panicked := true }

/-- One iteration of the word loop: pack `word` into the current visual
line if it fits (`len + word.len() + 1 <= max`), otherwise flush the
current line and start a new one with `word`. -/
def wordStep (w : Nat) (st : EmitSt) (word : Str) : EmitSt :=
  if st.panicked then st
  else if st.len + word.length + 1 ≤ w then
    if st.buf.isEmpty then { st with buf := word, len := st.len + word.length }
    else { st with buf := st.buf ++ ' ' :: word, len := st.len + 1 + word.length }
  else
    let st1 := flushLine w st
    if st1.panicked then st1 else { st1 with buf := word, len := word.length }

/-- One logical line: a fresh `buf`, the word loop, and the final flush. -/
def lineStep (w : Nat) (st : EmitSt) (line : Str) : EmitSt :=
  if st.panicked then st
  else flushLine w ((splitWs line).foldl (wordStep w) { st with buf := [], len := 0 })

/-- The whole wrapping loop of `print_highlighted_code` over every logical
line of `code`, at interior width `w`. -/
def renderEmit (w : Nat) (code : Str) : EmitSt :=
  (rustLines code).foldl (lineStep w)
    { buf := [], len := 0, emitted := [], panicked := false }

/-- Join words with single separating spaces (the shape `buf` takes). -/
def joinSp : List Str → Str
  | [] => []
  | [w] => w
  | w :: ws => w ++ ' ' :: joinSp ws

/-! ## The synthesis loop and `main`

The interactive loop of `main` is embedded as a function of the scripted
standard-input lines (an exhausted script is the `read_line` that returns
an empty line) and of the external collaborators: the model (a function
from the transcript to the optional completion text, `none` being a
response with no text content) and the executor (a function from the
accepted command to `none` for a spawn/wait error, or to the child's
optional exit code, `none` being termination by a signal).  The model
identifier resolution and the network transport are folded into the model
oracle; a transport error aborts the invocation before any of the
behaviour specified here and is not modelled. -/

/-- The `Shell` value enum of the CLI. -/
inductive Shell
  | bash
  | powershell
deriving DecidableEq

/-- The syntax-hint extension chosen in `main`: `"ps1"` for PowerShell,
`"sh"` otherwise. -/
def extOf : Shell → Str
  | .powershell => "ps1".toList
  | .bash => "sh".toList

/-- `SyntaxSet::find_syntax_by_extension`: the loaded syntax definitions
are abstracted as the list of extensions they register. -/
def findSyntax (avail : List Str) (ext : Str) : Option Unit :=
  if ext ∈ avail then some () else none

/-- Result of `print_highlighted_code`: the unknown-syntax `Err`, a panic
while padding (with the lines printed before the abort), or the full list
of interior visual-line contents. -/
inductive RenderResult
  | unknownSyntax
  | panicAbort (emittedBefore : List Str)
  | ok (emitted : List Str)
deriving DecidableEq

/-- `print_highlighted_code` from `src/main.rs`: look up the syntax by
extension (`Err("Unknown syntax")` if absent), compute the interior width
`max` from the terminal width (fallback 80, saturating minus 4), and run
the wrapping loop. -/
def print_highlighted_code (avail : List Str) (termWidth : Option Nat)
    (code ext : Str) : RenderResult :=
  match findSyntax avail ext with
  | none => .unknownSyntax
  | some _ =>
    let w := (termWidth.getD 80) - 4
    let st := renderEmit w code
    if st.panicked then .panicAbort st.emitted else .ok st.emitted

/-- Top border `╭` + rule + `╮` of the rendered box. -/
def topBorder (w : Nat) : Str := '╭' :: List.replicate (w + 2) '─' ++ ['╮']

/-- Bottom border `╰` + rule + `╯` of the rendered box. -/
def botBorder (w : Nat) : Str := '╰' :: List.replicate (w + 2) '─' ++ ['╯']

/-- One bordered row `│ <content> │`. -/
def frameRow (content : Str) : Str := '│' :: ' ' :: content ++ [' ', '│']

/-- The presentation step of the loop:
`print_highlighted_code(&answer, ext).unwrap_or_else(|_| println!("{answer}"))`.
Returns the printed lines, or `none` when the renderer panicked and the
process aborted (a panic is not an `Err`, so it is not caught by the
fallback). -/
def present (avail : List Str) (termWidth : Option Nat) (ext ans : Str) :
    Option (List Str) :=
  match print_highlighted_code avail termWidth ans ext with
  | .unknownSyntax => some [ans]
  | .panicAbort _ => none
  | .ok emitted =>
    let w := (termWidth.getD 80) - 4
    some (topBorder w :: emitted.map frameRow ++ [botBorder w])

/-- Roles of `genai::chat::ChatMessage`. -/
inductive Role
  | system
  | user
  | assistant
deriving DecidableEq

/-- One turn of the transcript. -/
structure ChatMsg where
  role : Role
  content : Str
deriving DecidableEq

/-- The literal fallback `"NO ANSWER"` used when the model response has no
text content. -/
def noAnswerText : Str := "NO ANSWER".toList

/-- The per-invocation environment of the loop: the CLI flags, the
terminal width, the loaded syntax definitions, and the executor. -/
structure LoopCfg where
  dryRun : Bool
  shell : Shell
  termWidth : Option Nat
  avail : List Str
  exec : Str → Option (Option Nat)

/-- Interior content width: terminal width (fallback 80) minus 4,
saturating at zero. -/
def interiorWidth (cfg : LoopCfg) : Nat := (cfg.termWidth.getD 80) - 4

/-- Observable outcome of one invocation of the loop. -/
structure Outcome where
  modelCalls : Nat
  previews : List (List Str)
  executions : Nat
  executed : Option Str
  dryPrinted : Option Str
  reportedFailure : Option Nat
  exitCode : Nat
  aborted : Bool
deriving DecidableEq

/-- Rust `ExitStatus::success()` for a child status modelled as its
optional exit code (`none`: killed by a signal). -/
def statusSuccess (code : Option Nat) : Bool := code = some 0

/-- The acceptance branch of the loop (empty trimmed input): in dry-run
mode print the answer and return `Ok(())`; otherwise spawn the shell on
the answer, report `Command failed with status: {code}` (fallback code 1)
on an unsuccessful status, and return `Ok(())` — a spawn/wait error
propagates through `?` and makes `main` return `Err` (process exit 1). -/
def acceptOutcome (cfg : LoopCfg) (preview : List Str) (ans : Str) : Outcome :=
  if cfg.dryRun then
    { modelCalls := 1, previews := [preview], executions := 0, executed := none,
      dryPrinted := some ans, reportedFailure := none, exitCode := 0,
      aborted := false }
  else
    match cfg.exec ans with
    | none =>
      { modelCalls := 1, previews := [preview], executions := 1,
        executed := some ans, dryPrinted := none, reportedFailure := none,
        exitCode := 1, aborted := false }
    | some status =>
      { modelCalls := 1, previews := [preview], executions := 1,
        executed := some ans, dryPrinted := none,
        reportedFailure := if statusSuccess status then none
          else some (status.getD 1),
        exitCode := 0, aborted := false }

/-- One round's candidate command: the model completion for the current
transcript (the literal `"NO ANSWER"` if the response has no text
content), normalized. -/
def roundAnswer (oracle : List ChatMsg → Option Str) (msgs : List ChatMsg) :
    Str :=
  clean_answer ((oracle msgs).getD noAnswerText)

/-- The interactive preview → refine → accept loop of `main`.  Each round:
one model call, normalize, present (a renderer panic aborts the process —
modelled by the `aborted` outcome with the panic exit code 101), then read
one line; empty trimmed input accepts, anything else is appended to the
transcript as a user turn and the loop repeats. -/
def runLoop (cfg : LoopCfg) (oracle : List ChatMsg → Option Str) :
    List Str → List ChatMsg → Outcome
  | inputs, msgs =>
    let ans := roundAnswer oracle msgs
    match present cfg.avail cfg.termWidth (extOf cfg.shell) ans with
    | none =>
      { modelCalls := 1, previews := [], executions := 0, executed := none,
        dryPrinted := none, reportedFailure := none, exitCode := 101,
        aborted := true }
    | some preview =>
      match inputs with
      | [] => acceptOutcome cfg preview ans
      | i :: rest =>
        if trim i = [] then acceptOutcome cfg preview ans
        else
          let out := runLoop cfg oracle rest (msgs ++ [⟨Role.user, trim i⟩])
          { out with modelCalls := out.modelCalls + 1,
                     previews := preview :: out.previews }

/-- The configuration file structure (`Config` in `src/main.rs`), maps
modelled as association lists. -/
structure Config where
  models : List (Str × Str)
  api_keys : List (Str × Str)
  default_model : Str
  streaming : Bool
  system_prompt : Str

/-- The system instruction built in `main` from the shell name and the
host OS/architecture. -/
def systemText (sh : Shell) (osName archName : Str) : Str :=
  "Give a ".toList ++
    (match sh with | .bash => "bash".toList | .powershell => "PowerShell".toList) ++
    " one-liner to answer the question. The command will run on ".toList ++
    osName ++ [' '] ++ archName ++
    ". Do not use a code block or backticks.".toList

/-- Observable outcome of the whole process. -/
structure MainResult where
  exitCode : Nat
  stderrHasError : Bool
  modelCalls : Nat
deriving DecidableEq

/-- The start-up sequence of `main`: check that `GEMINI_API_KEY` is set
and non-empty (else report to stderr and `exit(1)`), load the
configuration (an `Err` of `ensure_config_exists`/`load_config`
propagates: `main` returns `Err`, exit code 1), build the two-turn initial
transcript, then run the loop.  `key` is `env::var("GEMINI_API_KEY").ok()`;
the prompt is the CLI words joined by single spaces. -/
def mainRun (key : Option Str) (configData : Except Unit Config)
    (cfg : LoopCfg) (oracle : List ChatMsg → Option Str) (inputs : List Str)
    (promptWords : List Str) (osName archName : Str) : MainResult :=
  if (key.filter (fun v => !v.isEmpty)).isNone then
    { exitCode := 1, stderrHasError := true, modelCalls := 0 }
  else
    match configData with
    | .error _ => { exitCode := 1, stderrHasError := true, modelCalls := 0 }
    | .ok _ =>
      let msgs := [⟨Role.system, systemText cfg.shell osName archName⟩,
                   ⟨Role.user, joinSp promptWords⟩]
      let out := runLoop cfg oracle inputs msgs
      { exitCode := out.exitCode,
        stderrHasError := out.aborted || out.reportedFailure.isSome,
        modelCalls := out.modelCalls }

/-- Every word of every logical line of `s` fits in width `w` (the
condition under which the wrapping loop cannot panic). -/
def wordsFit (w : Nat) (s : Str) : Prop :=
  ∀ l ∈ rustLines s, ∀ x ∈ splitWs l, x.length ≤ w

/-- Invariant of the wrapping loop while no panic has occurred: `len`
tracks the length of `buf`, and `buf` fits the interior width. -/
def fitSt (w : Nat) (st : EmitSt) : Prop :=
  st.panicked = false ∧ st.len = st.buf.length ∧ st.buf.length ≤ w

/-! Concrete environments used by counterexamples and witnesses. -/

def cfgW5 : LoopCfg := ⟨true, Shell.bash, some 80, [], fun _ => some (some 0)⟩

def cfgW9 : LoopCfg := ⟨false, Shell.bash, some 80, [], fun _ => some (some 0)⟩

def cfgW10 : LoopCfg := ⟨false, Shell.bash, some 80, [], fun _ => some (some 0)⟩

def cfgCE : LoopCfg := ⟨false, Shell.bash, some 10, ["sh".toList],
  fun _ => some (some 0)⟩

def oracleCE : List ChatMsg → Option Str := fun _ => some ("abcdefghij".toList)

def cfgW4 : LoopCfg := ⟨false, Shell.bash, some 80, ["sh".toList],
  fun _ => some (some 0)⟩

def oracleW4 : List ChatMsg → Option Str := fun _ => some ("ls".toList)

def cfgC1 : LoopCfg := ⟨false, Shell.bash, some 80, ["sh".toList],
  fun _ => some (some 7)⟩

def oracleC1 : List ChatMsg → Option Str := fun _ => some ("ls".toList)

def cfgW1 : LoopCfg := ⟨false, Shell.bash, some 80, ["sh".toList],
  fun _ => some (some 7)⟩

def cfgW8 : LoopCfg := ⟨false, Shell.bash, some 80, [], fun _ => some (some 0)⟩

/-! ## Theorems -/

theorem checkedSub_some {a b k : Nat} (h : checkedSub a b = some k) :
    b ≤ a ∧ k = a - b := by
  unfold checkedSub at h
  split at h
  · exact ⟨by assumption, by injection h with h; exact h.symm⟩
  · cases h

theorem checkedSub_zero (a : Nat) : checkedSub a 0 = some a := by
  simp [checkedSub]

theorem flushLine_goodLen {w : Nat} {st : EmitSt}
    (h : ∀ v ∈ st.emitted, v.length = w) :
    ∀ v ∈ (flushLine w st).emitted, v.length = w := by
  unfold flushLine
  split
  · exact h
  split
  · next k hk =>
    obtain ⟨hle, hkeq⟩ := checkedSub_some hk
    intro v hv
    rcases List.mem_append.mp hv with h1 | h2
    · exact h v h1
    · rw [List.mem_singleton] at h2
      subst h2 hkeq
      simp only [List.length_append, List.length_replicate]
      omega
  · exact h

theorem wordStep_goodLen {w : Nat} {st : EmitSt} {word : Str}
    (h : ∀ v ∈ st.emitted, v.length = w) :
    ∀ v ∈ (wordStep w st word).emitted, v.length = w := by
  unfold wordStep
  split
  · exact h
  split
  · split
    · exact h
    · exact h
  · dsimp only
    split
    · exact flushLine_goodLen h
    · exact flushLine_goodLen h

theorem foldl_wordStep_goodLen {w : Nat} (ws : List Str) :
    ∀ st : EmitSt, (∀ v ∈ st.emitted, v.length = w) →
      ∀ v ∈ (ws.foldl (wordStep w) st).emitted, v.length = w := by
  induction ws with
  | nil => exact fun st h => h
  | cons a as ih => exact fun st h => ih _ (wordStep_goodLen h)

theorem lineStep_goodLen {w : Nat} {st : EmitSt} {line : Str}
    (h : ∀ v ∈ st.emitted, v.length = w) :
    ∀ v ∈ (lineStep w st line).emitted, v.length = w := by
  unfold lineStep
  split
  · exact h
  · exact flushLine_goodLen (foldl_wordStep_goodLen _ _ h)

theorem foldl_lineStep_goodLen {w : Nat} (ls : List Str) :
    ∀ st : EmitSt, (∀ v ∈ st.emitted, v.length = w) →
      ∀ v ∈ (ls.foldl (lineStep w) st).emitted, v.length = w := by
  induction ls with
  | nil => exact fun st h => h
  | cons a as ih => exact fun st h => ih _ (lineStep_goodLen h)

theorem renderEmit_goodLen (w : Nat) (code : Str) :
    ∀ v ∈ (renderEmit w code).emitted, v.length = w := by
  unfold renderEmit
  exact foldl_lineStep_goodLen _ _ (by simp)

theorem wordStep_panicked {w : Nat} {st : EmitSt} (h : st.panicked = true)
    (word : Str) : wordStep w st word = st := by
  unfold wordStep
  rw [if_pos h]

theorem foldl_wordStep_panicked {w : Nat} {st : EmitSt} (h : st.panicked = true)
    (ws : List Str) : ws.foldl (wordStep w) st = st := by
  induction ws with
  | nil => rfl
  | cons a as ih => rw [List.foldl_cons, wordStep_panicked h]; exact ih

theorem lineStep_panicked {w : Nat} {st : EmitSt} (h : st.panicked = true)
    (line : Str) : lineStep w st line = st := by
  unfold lineStep
  rw [if_pos h]

theorem foldl_lineStep_panicked {w : Nat} {st : EmitSt} (h : st.panicked = true)
    (ls : List Str) : ls.foldl (lineStep w) st = st := by
  induction ls with
  | nil => rfl
  | cons a as ih => rw [List.foldl_cons, lineStep_panicked h]; exact ih

theorem joinSp_concat {g : List Str} (x : Str) (hg : g ≠ []) :
    joinSp (g ++ [x]) = joinSp g ++ ' ' :: x := by
  induction g with
  | nil => exact absurd rfl hg
  | cons a g' ih =>
    cases g' with
    | nil => simp [joinSp]
    | cons b g'' =>
      have h2 : joinSp ((b :: g'') ++ [x]) = joinSp (b :: g'') ++ ' ' :: x :=
        ih (by simp)
      have h3 : joinSp ((a :: b :: g'') ++ [x])
          = a ++ ' ' :: joinSp ((b :: g'') ++ [x]) := rfl
      rw [h3, h2]
      show a ++ ' ' :: (joinSp (b :: g'') ++ ' ' :: x)
          = (a ++ ' ' :: joinSp (b :: g'')) ++ ' ' :: x
      simp [List.append_assoc]

theorem joinSp_ne_nil {g : List Str} (hx : ∀ x ∈ g, x ≠ []) (hg : g ≠ []) :
    joinSp g ≠ [] := by
  cases g with
  | nil => exact absurd rfl hg
  | cons a g' =>
    cases g' with
    | nil => simpa [joinSp] using hx a (by simp)
    | cons b g'' => simp [joinSp]

theorem splitWsAux_ne_nil (s : Str) :
    ∀ (acc : Str), ∀ x ∈ splitWsAux s acc, x ≠ [] := by
  induction s with
  | nil =>
    intro acc x hx
    unfold splitWsAux at hx
    split at hx
    · simp at hx
    · next hne =>
      rw [List.mem_singleton] at hx
      subst hx
      simpa using fun h => hne (by simp [h])
  | cons c cs ih =>
    intro acc x hx
    unfold splitWsAux at hx
    split at hx
    · split at hx
      · exact ih [] x hx
      · next hne =>
        rcases List.mem_cons.mp hx with h | h
        · subst h
          simpa using fun h => hne (by simp [h])
        · exact ih [] x h
    · exact ih (c :: acc) x hx

theorem splitWs_ne_nil (s : Str) : ∀ x ∈ splitWs s, x ≠ [] :=
  splitWsAux_ne_nil s []

theorem preExtend {α : Type} {u v t : List α} (h : u <+: v) : u <+: v ++ t := by
  obtain ⟨r, hr⟩ := h
  exact ⟨r ++ t, by rw [← hr, List.append_assoc]⟩

theorem preCongLeft {α : Type} {u v : List α} (p : List α) (h : u <+: v) :
    p ++ u <+: p ++ v := by
  obtain ⟨r, hr⟩ := h
  exact ⟨r, by rw [← hr, List.append_assoc]⟩

/-- The wrapping word loop partitions its words into visual lines: the
emitted lines are space-joins of whole consecutive words and the pending
`buf` holds the remaining group; on a panic, the emitted groups cover a
leading portion of the words. -/
theorem foldl_wordStep_groups (w : Nat) (ws : List Str) :
    ∀ (st : EmitSt) (cur : List Str), (∀ y ∈ ws, y ≠ []) →
      st.panicked = false → st.buf = joinSp cur → (∀ y ∈ cur, y ≠ []) →
      ∃ (gss : List (List Str)) (cur' : List Str),
        (ws.foldl (wordStep w) st).emitted
            = st.emitted ++ gss.map (fun g => padTo w (joinSp g))
        ∧ (∀ y ∈ cur', y ≠ [])
        ∧ (((ws.foldl (wordStep w) st).panicked = false
              ∧ (ws.foldl (wordStep w) st).buf = joinSp cur'
              ∧ gss.flatten ++ cur' = cur ++ ws)
           ∨ ((ws.foldl (wordStep w) st).panicked = true
              ∧ gss.flatten <+: cur ++ ws)) := by
  induction ws with
  | nil =>
    intro st cur _ hp hbuf hcurw
    exact ⟨([] : List (List Str)), cur, by simp, hcurw,
      Or.inl ⟨hp, by simpa using hbuf, by simp⟩⟩
  | cons x ws' ih =>
    intro st cur hws hp hbuf hcurw
    have hxne : x ≠ [] := hws x (by simp)
    have hws' : ∀ y ∈ ws', y ≠ [] := fun y hy => hws y (by simp [hy])
    have hnp : ¬st.panicked = true := by simp [hp]
    rw [List.foldl_cons]
    by_cases hfit : st.len + x.length + 1 ≤ w
    · by_cases hbe : st.buf.isEmpty
      · -- the word fits and the current visual line is empty
        have hcur : cur = [] := by
          by_contra hc
          exact joinSp_ne_nil hcurw hc (hbuf ▸ List.isEmpty_iff.mp hbe)
        have hst1 : wordStep w st x
            = { st with buf := x, len := st.len + x.length } := by
          unfold wordStep
          rw [if_neg hnp, if_pos hfit, if_pos hbe]
        rw [hst1]
        obtain ⟨gss, cur', he, hcw, hd⟩ :=
          ih { st with buf := x, len := st.len + x.length } [x] hws' hp rfl
            (by simpa using hxne)
        refine ⟨gss, cur', by simpa using he, hcw, ?_⟩
        subst hcur
        rcases hd with ⟨h1, h2, h3⟩ | ⟨h1, h2⟩
        · exact Or.inl ⟨h1, h2, by simpa using h3⟩
        · exact Or.inr ⟨h1, by simpa using h2⟩
      · -- the word fits on the non-empty current visual line
        have hcurne : cur ≠ [] := by
          intro hc
          rw [hc] at hbuf
          exact hbe (List.isEmpty_iff.mpr hbuf)
        have hst1 : wordStep w st x
            = { st with buf := st.buf ++ ' ' :: x,
                        len := st.len + 1 + x.length } := by
          unfold wordStep
          rw [if_neg hnp, if_pos hfit, if_neg hbe]
        rw [hst1]
        obtain ⟨gss, cur', he, hcw, hd⟩ :=
          ih { st with buf := st.buf ++ ' ' :: x, len := st.len + 1 + x.length }
            (cur ++ [x]) hws' hp
            (by simp only; rw [hbuf, joinSp_concat x hcurne])
            (by intro y hy
                rcases List.mem_append.mp hy with h | h
                · exact hcurw y h
                · rw [List.mem_singleton] at h; subst h; exact hxne)
        refine ⟨gss, cur', by simpa using he, hcw, ?_⟩
        rcases hd with ⟨h1, h2, h3⟩ | ⟨h1, h2⟩
        · exact Or.inl ⟨h1, h2, by rw [h3]; simp⟩
        · refine Or.inr ⟨h1, ?_⟩
          rw [show cur ++ x :: ws' = (cur ++ [x]) ++ ws' by simp]
          exact h2
    · -- overflow: flush the current line, then start a new one with the word
      rcases hck : checkedSub w st.buf.length with _ | k
      · -- the flush panics: the process aborts here
        have hst1 : wordStep w st x = { st with panicked := true } := by
          unfold wordStep flushLine
          rw [if_neg hnp, if_neg hfit, if_neg hnp, hck]
          simp
        rw [hst1, foldl_wordStep_panicked rfl ws']
        exact ⟨[], [], by simp, by simp,
          Or.inr ⟨rfl, ⟨cur ++ x :: ws', by simp⟩⟩⟩
      · -- successful flush of the current group, `buf` restarts at the word
        obtain ⟨hle, hkeq⟩ := checkedSub_some hck
        have hst1 : wordStep w st x
            = { buf := x, len := x.length,
                emitted := st.emitted ++ [st.buf ++ List.replicate k ' '],
                panicked := st.panicked } := by
          unfold wordStep flushLine
          rw [if_neg hnp, if_neg hfit, if_neg hnp, hck]
          simp [hp]
        rw [hst1]
        obtain ⟨gss, cur', he, hcw, hd⟩ :=
          ih { buf := x, len := x.length,
               emitted := st.emitted ++ [st.buf ++ List.replicate k ' '],
               panicked := st.panicked } [x] hws' hp rfl (by simpa using hxne)
        have hpad : st.buf ++ List.replicate k ' ' = padTo w (joinSp cur) := by
          rw [padTo, ← hbuf, hkeq]
        refine ⟨cur :: gss, cur', ?_, hcw, ?_⟩
        · rw [he]
          simp only [List.map_cons, ← hpad, List.append_assoc, List.cons_append,
            List.nil_append]
        · rcases hd with ⟨h1, h2, h3⟩ | ⟨h1, h2⟩
          · refine Or.inl ⟨h1, h2, ?_⟩
            rw [List.flatten_cons, List.append_assoc, h3]
            simp
          · refine Or.inr ⟨h1, ?_⟩
            rw [List.flatten_cons]
            have := preCongLeft cur h2
            simpa using this

theorem lineStep_groups (w : Nat) (st : EmitSt) (line : Str)
    (hp : st.panicked = false) :
    ∃ gss : List (List Str),
      (lineStep w st line).emitted
          = st.emitted ++ gss.map (fun g => padTo w (joinSp g))
      ∧ (((lineStep w st line).panicked = false ∧ gss.flatten = splitWs line)
         ∨ ((lineStep w st line).panicked = true
            ∧ gss.flatten <+: splitWs line)) := by
  have hnp : ¬st.panicked = true := by simp [hp]
  unfold lineStep
  rw [if_neg hnp]
  obtain ⟨gss, cur', he, hcw, hd⟩ :=
    foldl_wordStep_groups w (splitWs line) { st with buf := [], len := 0 } []
      (splitWs_ne_nil line) hp rfl (by simp)
  set stf := (splitWs line).foldl (wordStep w) { st with buf := [], len := 0 }
    with hstf
  rcases hd with ⟨h1, h2, h3⟩ | ⟨h1, h2⟩
  · rcases hck : checkedSub w stf.buf.length with _ | k
    · have hfl : flushLine w stf = { stf with panicked := true } := by
        unfold flushLine
        rw [if_neg (by simp [h1]), hck]
      refine ⟨gss, ?_, Or.inr ⟨by rw [hfl], ?_⟩⟩
      · rw [hfl]
        simpa using he
      · refine ⟨cur', ?_⟩
        simpa using h3
    · obtain ⟨hle, hkeq⟩ := checkedSub_some hck
      have hfl : flushLine w stf
          = { stf with emitted := stf.emitted ++ [stf.buf ++ List.replicate k ' '] } := by
        unfold flushLine
        rw [if_neg (by simp [h1]), hck]
      have hpad : stf.buf ++ List.replicate k ' ' = padTo w (joinSp cur') := by
        rw [padTo, ← h2, hkeq]
      refine ⟨gss ++ [cur'], ?_, Or.inl ⟨by rw [hfl]; exact h1, ?_⟩⟩
      · rw [hfl]
        show stf.emitted ++ [stf.buf ++ List.replicate k ' ']
            = st.emitted ++ (gss ++ [cur']).map (fun g => padTo w (joinSp g))
        rw [he, hpad]
        simp [List.append_assoc]
      · rw [List.flatten_append]
        simpa using h3
  · have hfl : flushLine w stf = stf := by
      unfold flushLine
      rw [if_pos h1]
    refine ⟨gss, by rw [hfl]; simpa using he,
      Or.inr ⟨by rw [hfl]; exact h1, by simpa using h2⟩⟩

theorem foldl_lineStep_groups (w : Nat) (ls : List Str) :
    ∀ st : EmitSt, st.panicked = false →
      ∃ gss : List (List Str),
        (ls.foldl (lineStep w) st).emitted
            = st.emitted ++ gss.map (fun g => padTo w (joinSp g))
        ∧ gss.flatten <+: (ls.map splitWs).flatten := by
  induction ls with
  | nil =>
    intro st _
    exact ⟨[], by simp, by simp⟩
  | cons l ls' ih =>
    intro st hp
    rw [List.foldl_cons]
    obtain ⟨gss1, he1, hd⟩ := lineStep_groups w st l hp
    rcases hd with ⟨h1, h2⟩ | ⟨h1, h2⟩
    · obtain ⟨gss2, he2, hpre2⟩ := ih _ h1
      refine ⟨gss1 ++ gss2, ?_, ?_⟩
      · rw [he2, he1]
        simp [List.append_assoc]
      · simp only [List.flatten_append, List.map_cons, List.flatten_cons, ← h2]
        exact preCongLeft _ hpre2
    · rw [foldl_lineStep_panicked h1]
      refine ⟨gss1, he1, ?_⟩
      simp only [List.map_cons, List.flatten_cons]
      exact preExtend h2

/-- C2: at any positive interior width `w` and for any non-empty input,
every visual line the wrapping loop of `print_highlighted_code` emits has
content length exactly `w` after right-padding, and no whitespace-separated
word is ever split across two visual lines: the emitted lines are the
space-joins of consecutive whole groups of the input's words (a word too
wide to pad makes the loop panic before emitting any malformed line). -/
theorem render_width_no_split (code : Str) (w : Nat)
    (hcode : code ≠ []) (hw : 0 < w) :
    (∀ v ∈ (renderEmit w code).emitted, v.length = w)
  ∧ ∃ gss : List (List Str),
      (renderEmit w code).emitted = gss.map (fun g => padTo w (joinSp g))
      ∧ gss.flatten <+: ((rustLines code).map splitWs).flatten := by
  refine ⟨renderEmit_goodLen w code, ?_⟩
  obtain ⟨gss, he, hpre⟩ := foldl_lineStep_groups w (rustLines code)
    { buf := [], len := 0, emitted := [], panicked := false } rfl
  refine ⟨gss, ?_, hpre⟩
  unfold renderEmit
  simpa using he

theorem render_width_no_split_witness :
    ("ab cd".toList ≠ [] ∧ 0 < 3) ∧
    ((∀ v ∈ (renderEmit 3 ("ab cd".toList)).emitted, v.length = 3)
     ∧ ∃ gss : List (List Str),
        (renderEmit 3 ("ab cd".toList)).emitted
            = gss.map (fun g => padTo 3 (joinSp g))
        ∧ gss.flatten <+: ((rustLines ("ab cd".toList)).map splitWs).flatten) :=
  ⟨⟨by decide, by decide⟩,
    render_width_no_split ("ab cd".toList) 3 (by decide) (by decide)⟩

/-- C7: an empty logical line of the renderer's input produces exactly one
visual line with empty content (all padding) — never zero lines and never
more than one. -/
theorem empty_line_one_visual (w : Nat) (code : Str) (st : EmitSt) (l : Str)
    (hl : l ∈ rustLines code) (hline : l = []) (hp : st.panicked = false) :
    (lineStep w st l).emitted = st.emitted ++ [padTo w []]
    ∧ (lineStep w st l).panicked = false := by
  subst hline
  unfold lineStep
  rw [if_neg (by simp [hp])]
  rw [show splitWs [] = [] from rfl, List.foldl_nil]
  unfold flushLine
  rw [if_neg (by simp [hp])]
  simp [checkedSub, padTo, hp]

theorem empty_line_one_visual_witness :
    (([] : Str) ∈ rustLines ("a\n\nb".toList) ∧
      (⟨[], 0, [], false⟩ : EmitSt).panicked = false) ∧
    ((lineStep 5 (⟨[], 0, [], false⟩ : EmitSt) []).emitted
        = (⟨[], 0, [], false⟩ : EmitSt).emitted ++ [padTo 5 []]
     ∧ (lineStep 5 (⟨[], 0, [], false⟩ : EmitSt) []).panicked = false) :=
  ⟨⟨by decide, rfl⟩,
    empty_line_one_visual 5 ("a\n\nb".toList) ⟨[], 0, [], false⟩ []
      (by decide) rfl rfl⟩

theorem flushLine_fit {w : Nat} {st : EmitSt} (h : fitSt w st) :
    fitSt w (flushLine w st) := by
  obtain ⟨hp, hlen, hle⟩ := h
  unfold flushLine
  rw [if_neg (by simp [hp])]
  rw [show checkedSub w st.buf.length = some (w - st.buf.length) from by
    simp [checkedSub, hle]]
  exact ⟨hp, hlen, hle⟩

theorem wordStep_fit {w : Nat} {st : EmitSt} {x : Str} (h : fitSt w st)
    (hx : x.length ≤ w) : fitSt w (wordStep w st x) := by
  obtain ⟨hp, hlen, hle⟩ := h
  unfold wordStep
  rw [if_neg (by simp [hp])]
  by_cases hfit : st.len + x.length + 1 ≤ w
  · rw [if_pos hfit]
    by_cases hbe : st.buf.isEmpty
    · rw [if_pos hbe]
      have hb : st.buf = [] := List.isEmpty_iff.mp hbe
      refine ⟨hp, ?_, ?_⟩
      · simp [hlen, hb]
      · show x.length ≤ w
        omega
    · rw [if_neg hbe]
      refine ⟨hp, ?_, ?_⟩
      · show st.len + 1 + x.length = (st.buf ++ ' ' :: x).length
        simp [hlen]
        omega
      · show (st.buf ++ ' ' :: x).length ≤ w
        simp
        omega
  · rw [if_neg hfit]
    have hfl : fitSt w (flushLine w st) := flushLine_fit ⟨hp, hlen, hle⟩
    obtain ⟨hp1, _, _⟩ := hfl
    dsimp only
    rw [if_neg (by simp [hp1])]
    exact ⟨hp1, rfl, hx⟩

theorem foldl_wordStep_fit {w : Nat} (ws : List Str)
    (hws : ∀ x ∈ ws, x.length ≤ w) :
    ∀ st : EmitSt, fitSt w st → fitSt w (ws.foldl (wordStep w) st) := by
  induction ws with
  | nil => exact fun st h => h
  | cons x ws' ih =>
    intro st h
    rw [List.foldl_cons]
    exact ih (fun y hy => hws y (by simp [hy])) _
      (wordStep_fit h (hws x (by simp)))

theorem lineStep_fit {w : Nat} {st : EmitSt} {line : Str}
    (hl : ∀ x ∈ splitWs line, x.length ≤ w) (h : fitSt w st) :
    fitSt w (lineStep w st line) := by
  obtain ⟨hp, _, _⟩ := h
  unfold lineStep
  rw [if_neg (by simp [hp])]
  exact flushLine_fit (foldl_wordStep_fit _ hl _ ⟨hp, by simp, by simp⟩)

theorem renderEmit_no_panic {w : Nat} {code : Str} (h : wordsFit w code) :
    (renderEmit w code).panicked = false := by
  unfold renderEmit
  have main : ∀ (ls : List Str), (∀ l ∈ ls, ∀ x ∈ splitWs l, x.length ≤ w) →
      ∀ st : EmitSt, fitSt w st → fitSt w (ls.foldl (lineStep w) st) := by
    intro ls
    induction ls with
    | nil => exact fun _ st hst => hst
    | cons l ls' ih =>
      intro hls st hst
      rw [List.foldl_cons]
      exact ih (fun y hy => hls y (by simp [hy])) _
        (lineStep_fit (hls l (by simp)) hst)
  exact (main (rustLines code) h _ ⟨rfl, rfl, by simp⟩).1

theorem present_some_of_fit (avail : List Str) (tw : Option Nat)
    (ext ans : Str) (h : wordsFit ((tw.getD 80) - 4) ans) :
    ∃ p, present avail tw ext ans = some p := by
  unfold present print_highlighted_code
  rcases hfs : findSyntax avail ext with _ | u
  · exact ⟨[ans], rfl⟩
  · have hnp : (renderEmit (tw.getD 80 - 4) ans).panicked = false :=
      renderEmit_no_panic h
    simp [hnp]

/-- The abort outcome of a renderer panic inside the loop. -/
theorem runLoop_abort (cfg : LoopCfg) (oracle : List ChatMsg → Option Str)
    (inputs : List Str) (msgs : List ChatMsg)
    (h : present cfg.avail cfg.termWidth (extOf cfg.shell)
        (roundAnswer oracle msgs) = none) :
    runLoop cfg oracle inputs msgs
      = ⟨1, [], 0, none, none, none, 101, true⟩ := by
  cases inputs <;> rw [runLoop] <;> rw [h]

theorem runLoop_accept_nil (cfg : LoopCfg) (oracle : List ChatMsg → Option Str)
    (msgs : List ChatMsg) (p : List Str)
    (h : present cfg.avail cfg.termWidth (extOf cfg.shell)
        (roundAnswer oracle msgs) = some p) :
    runLoop cfg oracle [] msgs
      = acceptOutcome cfg p (roundAnswer oracle msgs) := by
  rw [runLoop, h]

theorem runLoop_accept_cons (cfg : LoopCfg) (oracle : List ChatMsg → Option Str)
    (i : Str) (rest : List Str) (msgs : List ChatMsg) (p : List Str)
    (h : present cfg.avail cfg.termWidth (extOf cfg.shell)
        (roundAnswer oracle msgs) = some p)
    (hi : trim i = []) :
    runLoop cfg oracle (i :: rest) msgs
      = acceptOutcome cfg p (roundAnswer oracle msgs) := by
  rw [runLoop, h]
  simp [hi]

theorem runLoop_refine (cfg : LoopCfg) (oracle : List ChatMsg → Option Str)
    (i : Str) (rest : List Str) (msgs : List ChatMsg) (p : List Str)
    (h : present cfg.avail cfg.termWidth (extOf cfg.shell)
        (roundAnswer oracle msgs) = some p)
    (hi : trim i ≠ []) :
    runLoop cfg oracle (i :: rest) msgs
      = { runLoop cfg oracle rest (msgs ++ [⟨Role.user, trim i⟩]) with
            modelCalls :=
              (runLoop cfg oracle rest (msgs ++ [⟨Role.user, trim i⟩])).modelCalls + 1,
            previews :=
              p :: (runLoop cfg oracle rest (msgs ++ [⟨Role.user, trim i⟩])).previews } := by
  rw [runLoop, h]
  simp [hi]

theorem acceptOutcome_dry {cfg : LoopCfg} {p : List Str} {ans : Str}
    (hdry : cfg.dryRun = true) :
    acceptOutcome cfg p ans = ⟨1, [p], 0, none, some ans, none, 0, false⟩ := by
  unfold acceptOutcome
  rw [if_pos hdry]

theorem acceptOutcome_previews (cfg : LoopCfg) (p : List Str) (ans : Str) :
    (acceptOutcome cfg p ans).previews = [p]
    ∧ (acceptOutcome cfg p ans).aborted = false
    ∧ (acceptOutcome cfg p ans).modelCalls = 1 := by
  unfold acceptOutcome
  split
  · exact ⟨rfl, rfl, rfl⟩
  · split <;> exact ⟨rfl, rfl, rfl⟩

/-- C5: in dry-run mode, whenever the invocation accepts a command (the
run does not abort — and every non-aborted run accepts exactly once), the
executor is never invoked, the process exits 0, and the printed text is
exactly the normalized candidate command. -/
theorem dry_run_no_exec (cfg : LoopCfg) (oracle : List ChatMsg → Option Str)
    (inputs : List Str) (msgs : List ChatMsg)
    (hdry : cfg.dryRun = true)
    (hacc : (runLoop cfg oracle inputs msgs).aborted = false) :
    (runLoop cfg oracle inputs msgs).executions = 0
  ∧ (runLoop cfg oracle inputs msgs).executed = none
  ∧ (runLoop cfg oracle inputs msgs).exitCode = 0
  ∧ ∃ raw, (runLoop cfg oracle inputs msgs).dryPrinted
      = some (clean_answer raw) := by
  induction inputs generalizing msgs with
  | nil =>
    rcases hpres : present cfg.avail cfg.termWidth (extOf cfg.shell)
        (roundAnswer oracle msgs) with _ | p
    · rw [runLoop_abort cfg oracle [] msgs hpres] at hacc
      cases hacc
    · rw [runLoop_accept_nil cfg oracle msgs p hpres,
        acceptOutcome_dry hdry]
      exact ⟨rfl, rfl, rfl, (oracle msgs).getD noAnswerText, rfl⟩
  | cons i rest ih =>
    rcases hpres : present cfg.avail cfg.termWidth (extOf cfg.shell)
        (roundAnswer oracle msgs) with _ | p
    · rw [runLoop_abort cfg oracle (i :: rest) msgs hpres] at hacc
      cases hacc
    · by_cases hi : trim i = []
      · rw [runLoop_accept_cons cfg oracle i rest msgs p hpres hi,
          acceptOutcome_dry hdry]
        exact ⟨rfl, rfl, rfl, (oracle msgs).getD noAnswerText, rfl⟩
      · rw [runLoop_refine cfg oracle i rest msgs p hpres hi] at hacc ⊢
        exact ih (msgs ++ [⟨Role.user, trim i⟩]) hacc

theorem dry_run_no_exec_witness :
    (cfgW5.dryRun = true
      ∧ (runLoop cfgW5 (fun _ => some ("ls".toList)) [] []).aborted = false) ∧
    ((runLoop cfgW5 (fun _ => some ("ls".toList)) [] []).executions = 0
     ∧ (runLoop cfgW5 (fun _ => some ("ls".toList)) [] []).executed = none
     ∧ (runLoop cfgW5 (fun _ => some ("ls".toList)) [] []).exitCode = 0
     ∧ ∃ raw, (runLoop cfgW5 (fun _ => some ("ls".toList)) [] []).dryPrinted
         = some (clean_answer raw)) :=
  ⟨⟨rfl, by decide⟩,
    dry_run_no_exec cfgW5 (fun _ => some ("ls".toList)) [] [] rfl (by decide)⟩

/-- C9: when the requested syntax has no available highlighting
definition, `print_highlighted_code` fails recoverably and the caller
falls back to printing the plain normalized command; the run never aborts
and the loop continues normally, every preview being the single
unstyled line containing a normalized answer. -/
theorem highlight_fallback (cfg : LoopCfg) (oracle : List ChatMsg → Option Str)
    (inputs : List Str) (msgs : List ChatMsg)
    (h : findSyntax cfg.avail (extOf cfg.shell) = none) :
    (∀ ans, present cfg.avail cfg.termWidth (extOf cfg.shell) ans = some [ans])
  ∧ (runLoop cfg oracle inputs msgs).aborted = false
  ∧ ∀ p ∈ (runLoop cfg oracle inputs msgs).previews,
      ∃ raw, p = [clean_answer raw] := by
  have hpres : ∀ ans, present cfg.avail cfg.termWidth (extOf cfg.shell) ans
      = some [ans] := by
    intro ans
    unfold present print_highlighted_code
    rw [h]
  refine ⟨hpres, ?_⟩
  induction inputs generalizing msgs with
  | nil =>
    rw [runLoop_accept_nil cfg oracle msgs _ (hpres _)]
    obtain ⟨hprev, habort, _⟩ := acceptOutcome_previews cfg _ _
    rw [hprev, habort]
    refine ⟨rfl, ?_⟩
    intro p hp
    rw [List.mem_singleton] at hp
    subst hp
    exact ⟨(oracle msgs).getD noAnswerText, rfl⟩
  | cons i rest ih =>
    by_cases hi : trim i = []
    · rw [runLoop_accept_cons cfg oracle i rest msgs _ (hpres _) hi]
      obtain ⟨hprev, habort, _⟩ := acceptOutcome_previews cfg _ _
      rw [hprev, habort]
      refine ⟨rfl, ?_⟩
      intro p hp
      rw [List.mem_singleton] at hp
      subst hp
      exact ⟨(oracle msgs).getD noAnswerText, rfl⟩
    · rw [runLoop_refine cfg oracle i rest msgs _ (hpres _) hi]
      obtain ⟨habort, hprevs⟩ := ih (msgs ++ [⟨Role.user, trim i⟩])
      refine ⟨habort, ?_⟩
      intro p hp
      rcases List.mem_cons.mp hp with h1 | h2
      · subst h1
        exact ⟨(oracle msgs).getD noAnswerText, rfl⟩
      · exact hprevs p h2

theorem highlight_fallback_witness :
    findSyntax cfgW9.avail (extOf cfgW9.shell) = none ∧
    ((∀ ans, present cfgW9.avail cfgW9.termWidth (extOf cfgW9.shell) ans
        = some [ans])
     ∧ (runLoop cfgW9 (fun _ => some ("ls".toList)) [] []).aborted = false
     ∧ ∀ p ∈ (runLoop cfgW9 (fun _ => some ("ls".toList)) [] []).previews,
         ∃ raw, p = [clean_answer raw]) :=
  ⟨rfl, highlight_fallback cfgW9 (fun _ => some ("ls".toList)) [] [] rfl⟩

/-- C10: when the model response has no text content, the literal
`"NO ANSWER"` becomes the raw completion: it is its own normalized form,
the first round presents exactly it, and an immediately accepted
non-dry-run invocation hands exactly it to the executor. -/
theorem no_answer_placeholder (cfg : LoopCfg) (oracle : List ChatMsg → Option Str)
    (inputs : List Str) (msgs : List ChatMsg)
    (h : oracle msgs = none) :
    clean_answer noAnswerText = noAnswerText
  ∧ (runLoop cfg oracle inputs msgs).previews.head?
      = present cfg.avail cfg.termWidth (extOf cfg.shell) noAnswerText
  ∧ ((runLoop cfg oracle [] msgs).aborted = false → cfg.dryRun = false →
      (runLoop cfg oracle [] msgs).executed = some noAnswerText) := by
  have hid : clean_answer noAnswerText = noAnswerText := by decide
  have hra : roundAnswer oracle msgs = noAnswerText := by
    rw [roundAnswer, h]
    exact hid
  refine ⟨hid, ?_, ?_⟩
  · rcases hpres : present cfg.avail cfg.termWidth (extOf cfg.shell)
        (roundAnswer oracle msgs) with _ | p
    · rw [runLoop_abort cfg oracle inputs msgs hpres]
      rw [← hra, hpres]
      rfl
    · cases inputs with
      | nil =>
        rw [runLoop_accept_nil cfg oracle msgs p hpres, ← hra, hpres,
          (acceptOutcome_previews cfg p _).1]
        rfl
      | cons i rest =>
        by_cases hi : trim i = []
        · rw [runLoop_accept_cons cfg oracle i rest msgs p hpres hi, ← hra,
            hpres, (acceptOutcome_previews cfg p _).1]
          rfl
        · rw [runLoop_refine cfg oracle i rest msgs p hpres hi, ← hra, hpres]
          rfl
  · intro hacc hdry
    rcases hpres : present cfg.avail cfg.termWidth (extOf cfg.shell)
        (roundAnswer oracle msgs) with _ | p
    · rw [runLoop_abort cfg oracle [] msgs hpres] at hacc
      cases hacc
    · rw [runLoop_accept_nil cfg oracle msgs p hpres]
      unfold acceptOutcome
      rw [if_neg (by simp [hdry]), ← hra]
      cases cfg.exec (roundAnswer oracle msgs) <;> rfl

theorem no_answer_placeholder_witness :
    ((fun _ : List ChatMsg => (none : Option Str)) [] = none) ∧
    (clean_answer noAnswerText = noAnswerText
     ∧ (runLoop cfgW10 (fun _ => none) [] []).previews.head?
         = present cfgW10.avail cfgW10.termWidth (extOf cfgW10.shell) noAnswerText
     ∧ ((runLoop cfgW10 (fun _ => none) [] []).aborted = false →
         cfgW10.dryRun = false →
         (runLoop cfgW10 (fun _ => none) [] []).executed = some noAnswerText)) :=
  ⟨rfl, no_answer_placeholder cfgW10 (fun _ => none) [] [] rfl⟩

/-- C4 (counterexample): with a 10-column terminal (interior width 6), the
model answering a single 10-character word, and the script of zero
refinement lines followed by one accepting empty line, the claim demands
1 model call and 1 execution; the invocation does perform its 1 model
call but the renderer panics on the over-wide word and the process aborts
with no execution at all. -/
theorem loop_counts_counterexample :
    trim ("".toList) = []
  ∧ (runLoop cfgCE oracleCE ["".toList] []).modelCalls = 1
  ∧ (runLoop cfgCE oracleCE ["".toList] []).executions = 0
  ∧ (runLoop cfgCE oracleCE ["".toList] []).aborted = true := by decide

/-- C4 (amended): in executing (non-dry-run) mode, and provided every
round's normalized answer wraps without overflowing the interior width
(so the renderer never panics), a script of `n` non-empty refinement
lines followed by one accepting empty line performs exactly `n + 1` model
calls and exactly one execution; anything scripted after the accepting
line is ignored — the loop never re-enters the model-calling state after
accepting. -/
theorem loop_counts_amended (cfg : LoopCfg) (oracle : List ChatMsg → Option Str)
    (msgs : List ChatMsg) (pre : List Str) (lastLine : Str) (rest : List Str)
    (hfit : ∀ ms : List ChatMsg,
      wordsFit (interiorWidth cfg) (roundAnswer oracle ms))
    (hpre : ∀ x ∈ pre, trim x ≠ []) (hlast : trim lastLine = [])
    (hdry : cfg.dryRun = false) :
    (runLoop cfg oracle (pre ++ lastLine :: rest) msgs).modelCalls
        = pre.length + 1
  ∧ (runLoop cfg oracle (pre ++ lastLine :: rest) msgs).executions = 1
  ∧ runLoop cfg oracle (pre ++ lastLine :: rest) msgs
      = runLoop cfg oracle (pre ++ [lastLine]) msgs := by
  induction pre generalizing msgs with
  | nil =>
    obtain ⟨p, hp⟩ := present_some_of_fit cfg.avail cfg.termWidth
      (extOf cfg.shell) (roundAnswer oracle msgs) (hfit msgs)
    rw [show ([] : List Str) ++ lastLine :: rest = lastLine :: rest from rfl,
      show ([] : List Str) ++ [lastLine] = [lastLine] from rfl,
      runLoop_accept_cons cfg oracle lastLine rest msgs p hp hlast,
      runLoop_accept_cons cfg oracle lastLine [] msgs p hp hlast]
    refine ⟨?_, ?_, rfl⟩
    · exact (acceptOutcome_previews cfg p _).2.2
    · unfold acceptOutcome
      rw [if_neg (by simp [hdry])]
      cases cfg.exec (roundAnswer oracle msgs) <;> rfl
  | cons i pre' ih =>
    obtain ⟨p, hp⟩ := present_some_of_fit cfg.avail cfg.termWidth
      (extOf cfg.shell) (roundAnswer oracle msgs) (hfit msgs)
    have hi : trim i ≠ [] := hpre i (by simp)
    rw [show (i :: pre') ++ lastLine :: rest = i :: (pre' ++ lastLine :: rest)
        from rfl,
      show (i :: pre') ++ [lastLine] = i :: (pre' ++ [lastLine]) from rfl,
      runLoop_refine cfg oracle i (pre' ++ lastLine :: rest) msgs p hp hi,
      runLoop_refine cfg oracle i (pre' ++ [lastLine]) msgs p hp hi]
    obtain ⟨h1, h2, h3⟩ := ih (msgs ++ [⟨Role.user, trim i⟩])
      (fun x hx => hpre x (by simp [hx]))
    refine ⟨?_, ?_, ?_⟩
    · show (runLoop cfg oracle (pre' ++ lastLine :: rest) _).modelCalls + 1 = _
      rw [h1]
      simp
    · exact h2
    · rw [h3]

theorem loop_counts_amended_witness :
    ((∀ ms : List ChatMsg,
        wordsFit (interiorWidth cfgW4) (roundAnswer oracleW4 ms))
      ∧ (∀ x ∈ (["again".toList] : List Str), trim x ≠ [])
      ∧ trim ("".toList) = [] ∧ cfgW4.dryRun = false) ∧
    ((runLoop cfgW4 oracleW4 (["again".toList] ++ "".toList :: []) []).modelCalls
        = 2
     ∧ (runLoop cfgW4 oracleW4 (["again".toList] ++ "".toList :: []) []).executions
        = 1
     ∧ runLoop cfgW4 oracleW4 (["again".toList] ++ "".toList :: []) []
        = runLoop cfgW4 oracleW4 (["again".toList] ++ ["".toList]) []) :=
  ⟨⟨fun ms => (by unfold wordsFit; decide : wordsFit (interiorWidth cfgW4) ("ls".toList)),
      by decide, by decide, rfl⟩,
    loop_counts_amended cfgW4 oracleW4 [] ["again".toList] ("".toList) []
      (fun ms => (by unfold wordsFit; decide : wordsFit (interiorWidth cfgW4) ("ls".toList)))
      (by decide) (by decide) rfl⟩

/-- C1 (counterexample): a run that accepts and executes a command whose
child exits with code 7 reports the failure carrying code 7 — but the
process exit status is 0, not the claimed non-zero propagation of the
child's code (`main` prints the report and returns `Ok(())`). -/
theorem exit_mapping_counterexample :
    (runLoop cfgC1 oracleC1 [] []).executions = 1
  ∧ (runLoop cfgC1 oracleC1 [] []).reportedFailure = some 7
  ∧ (runLoop cfgC1 oracleC1 [] []).exitCode = 0
  ∧ (runLoop cfgC1 oracleC1 [] []).aborted = false := by decide

/-- C1 (amended): for an accepted command in executing mode, a child exit
code of 0 yields no failure report and process exit 0; a non-zero child
exit code `c` yields a failure report carrying `c` (and a signal death,
whose code is unavailable, is reported with the fallback code 1) — but in
every such case the process itself still exits 0: the child's code is
reported, never propagated into the exit status. -/
theorem exit_mapping_amended (cfg : LoopCfg) (oracle : List ChatMsg → Option Str)
    (msgs : List ChatMsg) (hdry : cfg.dryRun = false)
    (hacc : (runLoop cfg oracle [] msgs).aborted = false) :
    (cfg.exec (roundAnswer oracle msgs) = some (some 0) →
        (runLoop cfg oracle [] msgs).exitCode = 0
      ∧ (runLoop cfg oracle [] msgs).reportedFailure = none)
  ∧ (∀ c : Nat, cfg.exec (roundAnswer oracle msgs) = some (some c) → c ≠ 0 →
        (runLoop cfg oracle [] msgs).reportedFailure = some c
      ∧ (runLoop cfg oracle [] msgs).exitCode = 0)
  ∧ (cfg.exec (roundAnswer oracle msgs) = some none →
        (runLoop cfg oracle [] msgs).reportedFailure = some 1
      ∧ (runLoop cfg oracle [] msgs).exitCode = 0) := by
  rcases hpres : present cfg.avail cfg.termWidth (extOf cfg.shell)
      (roundAnswer oracle msgs) with _ | p
  · rw [runLoop_abort cfg oracle [] msgs hpres] at hacc
    cases hacc
  · rw [runLoop_accept_nil cfg oracle msgs p hpres]
    unfold acceptOutcome
    rw [if_neg (by simp [hdry])]
    refine ⟨?_, ?_, ?_⟩
    · intro hx
      rw [hx]
      simp [statusSuccess]
    · intro c hx hc
      rw [hx]
      simp [statusSuccess, hc]
    · intro hx
      rw [hx]
      simp [statusSuccess]

theorem exit_mapping_amended_witness :
    (cfgW1.dryRun = false
      ∧ (runLoop cfgW1 (fun _ => some ("ls".toList)) [] []).aborted = false
      ∧ cfgW1.exec (roundAnswer (fun _ => some ("ls".toList)) [])
          = some (some 7) ∧ (7 : Nat) ≠ 0) ∧
    ((runLoop cfgW1 (fun _ => some ("ls".toList)) [] []).reportedFailure
        = some 7
     ∧ (runLoop cfgW1 (fun _ => some ("ls".toList)) [] []).exitCode = 0) :=
  ⟨⟨rfl, by decide, rfl, by decide⟩,
    (exit_mapping_amended cfgW1 (fun _ => some ("ls".toList)) [] rfl
        (by decide)).2.1 7 rfl (by decide)⟩

/-- C8: a missing, empty or non-unicode `GEMINI_API_KEY`, or an
unreadable/malformed configuration, is reported to standard error and the
process exits with a non-zero status before any model call is attempted. -/
theorem config_errors_fatal (key : Option Str) (configData : Except Unit Config)
    (cfg : LoopCfg) (oracle : List ChatMsg → Option Str) (inputs : List Str)
    (promptWords : List Str) (osName archName : Str)
    (h : (key.filter (fun v => !v.isEmpty)).isNone = true
         ∨ ∀ c : Config, configData ≠ Except.ok c) :
    (mainRun key configData cfg oracle inputs promptWords osName
        archName).exitCode ≠ 0
  ∧ (mainRun key configData cfg oracle inputs promptWords osName
        archName).modelCalls = 0
  ∧ (mainRun key configData cfg oracle inputs promptWords osName
        archName).stderrHasError = true := by
  unfold mainRun
  by_cases hk : (key.filter (fun v => !v.isEmpty)).isNone = true
  · rw [if_pos hk]
    exact ⟨by simp, rfl, rfl⟩
  · rw [if_neg hk]
    rcases h with h | h
    · exact absurd h hk
    · cases configData with
      | error e => exact ⟨by simp, rfl, rfl⟩
      | ok c => exact absurd rfl (h c)

theorem config_errors_fatal_witness :
    ((((none : Option Str).filter (fun v => !v.isEmpty)).isNone = true)
      ∨ ∀ c : Config, (Except.error () : Except Unit Config) ≠ Except.ok c) ∧
    ((mainRun none (Except.error ()) cfgW8 (fun _ => none) [] [] [] []).exitCode
        ≠ 0
     ∧ (mainRun none (Except.error ()) cfgW8 (fun _ => none) [] [] []
          []).modelCalls = 0
     ∧ (mainRun none (Except.error ()) cfgW8 (fun _ => none) [] [] []
          []).stderrHasError = true) :=
  ⟨Or.inl rfl,
    config_errors_fatal none (Except.error ()) cfgW8 (fun _ => none) [] [] [] []
      (Or.inl rfl)⟩

theorem trimL_idem (s : Str) : trimL (trimL s) = trimL s :=
  List.dropWhile_idempotent _ _

theorem trimR_idem (s : Str) : trimR (trimR s) = trimR s :=
  List.rdropWhile_idempotent _ _

theorem trimL_of_isPre {t u : Str} (ht : trimL t = t) (hu : u <+: t) :
    trimL u = u := by
  cases u with
  | nil => rfl
  | cons a u' =>
    cases t with
    | nil => exact absurd hu.sublist.length_le (by simp)
    | cons b t' =>
      obtain ⟨r, hr⟩ := hu
      have hab : b = a := by
        have := congrArg (fun l => l.head?) hr
        simpa using this.symm
      subst hab
      unfold trimL at ht ⊢
      rw [List.dropWhile_cons] at ht ⊢
      split at ht
      · exact absurd (congrArg List.length ht)
          (Nat.ne_of_lt (Nat.lt_succ_of_le (List.dropWhile_sublist _).length_le))
      · simp_all

theorem trim_idem (s : Str) : trim (trim s) = trim s := by
  unfold trim
  have h1 : trimL (trimL s) = trimL s := trimL_idem s
  have h2 : trimR (trimL s) <+: trimL s := List.rdropWhile_prefix _ _
  rw [trimL_of_isPre h1 h2, trimR_idem]

/-- `clean_answer` always returns a trimmed string. -/
theorem clean_answer_trimmed (x : Str) :
    trim (clean_answer x) = clean_answer x := by
  unfold clean_answer
  exact trim_idem _

/-- When the trimmed input neither starts nor ends with the fence marker,
`clean_answer` only trims. -/
theorem clean_answer_eq_trim (x : Str)
    (h1 : fence.isPrefixOf (trim x) = false)
    (h2 : fence.isSuffixOf (trim x) = false) :
    clean_answer x = trim x := by
  unfold clean_answer
  simp only [h1, h2, Bool.false_eq_true, if_false]
  exact trim_idem x

/-- C3 (counterexample): `clean_answer` is not idempotent.  On the input
`"``````"` (six backticks) one pass strips the trailing fence leaving
`"```"`, and a second pass strips that down to the empty string. -/
theorem clean_answer_idem_counterexample :
    clean_answer (clean_answer ("``````".toList)) ≠
      clean_answer ("``````".toList) := by decide

/-- C3 (amended): `clean_answer` is idempotent on every input whose
normalized form does not itself begin or end with a triple-backtick fence;
only when the first pass leaves a fence at a string boundary can a second
pass strip further. -/
theorem clean_answer_idem_amended (x : Str)
    (h1 : fence.isPrefixOf (clean_answer x) = false)
    (h2 : fence.isSuffixOf (clean_answer x) = false) :
    clean_answer (clean_answer x) = clean_answer x := by
  have ht := clean_answer_trimmed x
  have := clean_answer_eq_trim (clean_answer x) (by rw [ht]; exact h1)
    (by rw [ht]; exact h2)
  rw [this, ht]

theorem clean_answer_idem_amended_witness :
    (fence.isPrefixOf (clean_answer ("ls -la".toList)) = false ∧
      fence.isSuffixOf (clean_answer ("ls -la".toList)) = false) ∧
    clean_answer (clean_answer ("ls -la".toList)) =
      clean_answer ("ls -la".toList) :=
  ⟨by decide, clean_answer_idem_amended ("ls -la".toList) (by decide) (by decide)⟩

/-- C6: the normalizer's example behaviour: a fenced command is unfenced, a
plain command passes through, interior backticks are preserved, and in
general any input whose trimmed form has no fence anchored at its start or
end is merely trimmed. -/
theorem clean_answer_examples :
    clean_answer ("```bash\nls -la\n```".toList) = "ls -la".toList
  ∧ clean_answer ("ls -la".toList) = "ls -la".toList
  ∧ clean_answer ("echo `date`".toList) = "echo `date`".toList
  ∧ ∀ x : Str, fence.isPrefixOf (trim x) = false →
      fence.isSuffixOf (trim x) = false → clean_answer x = trim x :=
  ⟨by decide, by decide, by decide, clean_answer_eq_trim⟩

theorem clean_answer_examples_witness :
    (fence.isPrefixOf (trim ("echo hi".toList)) = false ∧
      fence.isSuffixOf (trim ("echo hi".toList)) = false) ∧
    clean_answer ("echo hi".toList) = trim ("echo hi".toList) :=
  ⟨by decide, clean_answer_examples.2.2.2 ("echo hi".toList) (by decide) (by decide)⟩

end Aido
